import Mathlib

/-!
Verification of the key-value store server (`server.py`).

The store keeps an in-memory dictionary of string keys and values and
mirrors it to a flat text file, one `key<TAB>value` entry per line.  A
command interpreter parses text commands (SET/GET/REMOVE/PRINT) and
dispatches to the store.

Modelling choices:
* Python strings are Lean `String`s; character-level work happens on
  `String.data : List Char`.
* The Python `dict` (insertion ordered, unique keys) is an association
  list `List (String × String)`; `dict[k] = v` updates in place when the
  key is present and appends otherwise, exactly like CPython.
* The persistence file is `Option String`: `none` when the file does not
  exist (as checked with `os.path.exists`), `some c` for contents `c`.
* `save` catches any write exception, so a failed write changes nothing
  and the caller cannot observe the failure; the Boolean `writeOk`
  selects which of the two behaviours the file system exhibits.
* Reading a text file in Python splits it into lines at `\n`, `\r\n` or
  `\r` (universal newlines); `splitLines` reproduces that, yielding one
  extra empty final piece when the contents end with a line terminator
  (that piece is skipped by `load`, which ignores blank lines).
-/

set_option autoImplicit false

namespace KVServer

/-! ### Python string primitives -/

/-- The whitespace characters recognised by Python's `str.strip()` and
`str.split()`: the characters for which `str.isspace()` holds — ASCII
`\t \n \v \f \r`, space, the separators `\x1c`-`\x1f`, and the Unicode
whitespace code points (NEL `\x85`, NBSP `\xa0`, Ogham space `\x1680`,
the `\x2000`-`\x200a` spaces, line/paragraph separators `\x2028`/`\x2029`,
`\x202f`, `\x205f` and the ideographic space `\x3000`). -/
def isPySpace (c : Char) : Bool :=
  let n := c.toNat
  (9 ≤ n && n ≤ 13) || (28 ≤ n && n ≤ 32) ||
  n = 0x85 || n = 0xa0 || n = 0x1680 || (0x2000 ≤ n && n ≤ 0x200a) ||
  n = 0x2028 || n = 0x2029 || n = 0x202f || n = 0x205f || n = 0x3000

/-- Python `str.lstrip()` on the character list. -/
def lstrip (l : List Char) : List Char := l.dropWhile isPySpace

/-- Python `str.rstrip()` on the character list. -/
def rstrip (l : List Char) : List Char := (l.reverse.dropWhile isPySpace).reverse

/-- Python `str.strip()` on the character list. -/
def pyStripL (l : List Char) : List Char := rstrip (lstrip l)

/-- Python `str.strip()`. -/
def pyStrip (s : String) : String := ⟨pyStripL s.data⟩

/-- Python `str.upper()` restricted to ASCII (all commands in the
protocol are ASCII). -/
def pyUpper (s : String) : String := ⟨s.data.map Char.toUpper⟩

/-- Python `line.split("\t", 1)`: `some (before, after)` when the line
contains a tab (split at the first one), `none` otherwise.  The source
only uses the result when it has exactly two parts. -/
def splitFirstTab : List Char → Option (List Char × List Char)
  | [] => none
  | c :: rest =>
    if c = '\t' then some ([], rest)
    else (splitFirstTab rest).map (fun p => (c :: p.1, p.2))

/-- Helper for `pyTokens`: `acc` holds the characters of the token under
construction, in reverse. -/
def pyTokensAux : List Char → List Char → List (List Char)
  | [], acc => if acc = [] then [] else [acc.reverse]
  | c :: rest, acc =>
    if isPySpace c then
      if acc = [] then pyTokensAux rest [] else acc.reverse :: pyTokensAux rest []
    else pyTokensAux rest (c :: acc)

/-- Python `str.split()` with no arguments: split on runs of whitespace,
dropping empty tokens. -/
def pyTokens (l : List Char) : List (List Char) := pyTokensAux l []

/-- Split file contents into lines the way iterating over a Python text
file does (universal newlines: `\n`, `\r\n` and `\r` all terminate a
line).  Contents that end in a terminator yield a final empty piece. -/
def splitLines : List Char → List (List Char)
  | [] => [[]]
  | [c] => if c = '\n' || c = '\r' then [[], []] else [[c]]
  | c1 :: c2 :: rest =>
    if c1 = '\n' then [] :: splitLines (c2 :: rest)
    else if c1 = '\r' then
      if c2 = '\n' then [] :: splitLines rest
      else [] :: splitLines (c2 :: rest)
    else
      match splitLines (c2 :: rest) with
      | [] => [[c1]]
      | l :: ls => (c1 :: l) :: ls

/-! ### The dictionary (`self.store`) -/

/-- `self.store[key] = value`: replace in place when the key is present,
append otherwise (CPython dict assignment). -/
def dictSet : List (String × String) → String → String → List (String × String)
  | [], k, v => [(k, v)]
  | (k', v') :: rest, k, v =>
    if k' = k then (k, v) :: rest else (k', v') :: dictSet rest k v

/-- `key in self.store`. -/
def containsKey : List (String × String) → String → Bool
  | [], _ => false
  | (k', _) :: rest, k => k' = k || containsKey rest k

/-- `self.store[key]` as a partial lookup. -/
def dictGet : List (String × String) → String → Option String
  | [], _ => none
  | (k', v') :: rest, k => if k' = k then some v' else dictGet rest k

/-- `del self.store[key]` (the source only calls it on present keys). -/
def dictDel : List (String × String) → String → List (String × String)
  | [], _ => []
  | (k', v') :: rest, k => if k' = k then rest else (k', v') :: dictDel rest k

/-! ### The store (`class KeyValueStore`) -/

/-- The observable state of a `KeyValueStore`: the in-memory dictionary
and the contents of the persistence file (`none` = file absent). -/
structure KeyValueStore where
  store : List (String × String)
  file : Option String
deriving DecidableEq, Repr

/-- The text `save` writes: one `key<TAB>value<NEWLINE>` per entry, in
dictionary order. -/
def serializeL : List (String × String) → List Char
  | [] => []
  | (k, v) :: rest => k.data ++ '\t' :: (v.data ++ '\n' :: serializeL rest)

/-- The persistence file contents for a given dictionary. -/
def serialize (st : List (String × String)) : String := ⟨serializeL st⟩

/-- `KeyValueStore.save`: rewrite the whole file from the dictionary.
`writeOk = false` is the exception path: the error is printed and
swallowed, the state is unchanged and the caller cannot tell. -/
def KeyValueStore.save (writeOk : Bool) (s : KeyValueStore) : KeyValueStore :=
  if writeOk then { s with file := some (serialize s.store) } else s

/-- `KeyValueStore.set`: store the pair, save, return the confirmation. -/
def KeyValueStore.set (writeOk : Bool) (s : KeyValueStore) (key value : String) :
    String × KeyValueStore :=
  let s1 : KeyValueStore := { s with store := dictSet s.store key value }
  ("Added key '" ++ key ++ "' with value '" ++ value ++ "'\n", s1.save writeOk)

/-- `KeyValueStore.get`: the stored value, or the not-found text. -/
def KeyValueStore.get (s : KeyValueStore) (key : String) : String :=
  match dictGet s.store key with
  | some v => v
  | none => "Key '" ++ key ++ "' not found."

/-- `KeyValueStore.remove`: delete and save when present, otherwise the
not-found text with no state change. -/
def KeyValueStore.remove (writeOk : Bool) (s : KeyValueStore) (key : String) :
    String × KeyValueStore :=
  if containsKey s.store key then
    let s1 : KeyValueStore := { s with store := dictDel s.store key }
    ("Removed key '" ++ key ++ "'.\n", s1.save writeOk)
  else
    ("Key '" ++ key ++ "' not found.", s)

/-- `KeyValueStore.print_store`: the formatted listing. -/
def KeyValueStore.print_store (s : KeyValueStore) : String :=
  if s.store = [] then "Store is empty.\n"
  else s.store.foldl (fun acc p => acc ++ "[KEY]: " ++ p.1 ++ "\t[VALUE]: " ++ p.2 ++ "\n") ""

/-- One line of `KeyValueStore.load`: strip, skip if blank, split at the
first tab, skip unless that yields two parts. -/
def parseLine (l : List Char) : Option (String × String) :=
  let l' := pyStripL l
  if l' = [] then none
  else
    match splitFirstTab l' with
    | some (k, v) => some (⟨k⟩, ⟨v⟩)
    | none => none

/-- The loop body of `KeyValueStore.load` over the file's lines. -/
def loadLines (st : List (String × String)) : List (List Char) → List (String × String)
  | [] => st
  | l :: rest =>
    match parseLine l with
    | some (k, v) => loadLines (dictSet st k v) rest
    | none => loadLines st rest

/-- `KeyValueStore.load`: no-op when the file is absent, otherwise fold
the parsed lines into the dictionary. -/
def KeyValueStore.load (s : KeyValueStore) : KeyValueStore :=
  match s.file with
  | none => s
  | some c => { s with store := loadLines s.store (splitLines c.data) }

/-- `KeyValueStore.__init__`: empty dictionary, then `load()`. -/
def KeyValueStore.mkFresh (file : Option String) : KeyValueStore :=
  KeyValueStore.load { store := [], file := file }

/-! ### The interpreter (`class CommandParser`) -/

/-- `CommandParser.parse_and_execute`: strip, tokenize, dispatch on the
upper-cased verb with arity checks, returning the response and the store
state after the command. -/
def CommandParser.parse_and_execute (writeOk : Bool) (s : KeyValueStore)
    (command : String) : String × KeyValueStore :=
  let command' := pyStrip command
  if command' = "" then ("ERROR: Empty command\n", s)
  else
    match pyTokens command'.data with
    | [] => ("ERROR: Invalid command\n", s)
    | t0 :: rest =>
      let cmd := pyUpper ⟨t0⟩
      if cmd = "SET" then
        match rest with
        | [k, v] => s.set writeOk ⟨k⟩ ⟨v⟩
        | _ => ("ERROR: SET command requires 2 arguments: key and value\n", s)
      else if cmd = "GET" then
        match rest with
        | [k] => (s.get ⟨k⟩, s)
        | _ => ("ERROR: GET command requires 1 argument: key\n", s)
      else if cmd = "REMOVE" then
        match rest with
        | [k] => s.remove writeOk ⟨k⟩
        | _ => ("ERROR: REMOVE command requires 1 argument: key\n", s)
      else if cmd = "PRINT" then
        (s.print_store, s)
      else
        ("ERROR: Unknown command '" ++ (⟨t0⟩ : String) ++ "'\n", s)

/-- Run a sequence of commands, collecting the responses. -/
def runCmds (writeOk : Bool) (s : KeyValueStore) :
    List String → List String × KeyValueStore
  | [] => ([], s)
  | c :: rest =>
    let r := CommandParser.parse_and_execute writeOk s c
    let rs := runCmds writeOk r.2 rest
    (r.1 :: rs.1, rs.2)

/-! ### Predicates used in the statements -/

/-- A protocol token: nonempty and whitespace-free.  Keys and values
that arrive through the command interpreter always have this shape,
since `str.split()` can only produce such tokens. -/
def isToken (s : String) : Bool :=
  !s.data.isEmpty && s.data.all (fun c => !isPySpace c)

/-- Every key and value of the dictionary is a protocol token. -/
def cleanStore (st : List (String × String)) : Bool :=
  st.all (fun p => isToken p.1 && isToken p.2)

/-- The dictionary's keys are pairwise distinct (always true of a real
Python dict). -/
def keysNodup (st : List (String × String)) : Prop :=
  (st.map Prod.fst).Nodup

/-- The key field of a persistence-file line: everything before the
first tab. -/
def lineKey (l : List Char) : List Char := l.takeWhile (fun c => c ≠ '\t')

/-- The lines of file contents `c` whose key field is `k`. -/
def linesForKey (c : String) (k : String) : List (List Char) :=
  (splitLines c.data).filter (fun l => lineKey l = k.data)

/-- A key survives `save` + `load` structurally: nonempty with a
non-whitespace first character, and free of tabs, newlines and carriage
returns. -/
def goodKey (k : String) : Bool :=
  (match k.data with
   | [] => false
   | c :: _ => !isPySpace c) &&
  k.data.all (fun c => c ≠ '\t' && c ≠ '\n' && c ≠ '\r')

/-- A value survives `save` + `load` structurally: nonempty with a
non-whitespace last character, and free of newlines and carriage
returns (tabs inside values are fine: `load` splits at the first tab
only). -/
def goodVal (v : String) : Bool :=
  (match v.data.getLast? with
   | none => false
   | some c => !isPySpace c) &&
  v.data.all (fun c => c ≠ '\n' && c ≠ '\r')

/-- The persistence-file line of one entry, without its terminator. -/
def entryLine (p : String × String) : List Char := p.1.data ++ '\t' :: p.2.data

/-! ### Basic lemmas -/

theorem string_data_inj {a b : String} (h : a.data = b.data) : a = b := by
  cases a; cases b; cases h; rfl

theorem isToken_iff {k : String} :
    isToken k = true ↔ k.data ≠ [] ∧ ∀ c ∈ k.data, isPySpace c = false := by
  simp [isToken, List.all_eq_true]

theorem not_space_ne {c : Char} (h : isPySpace c = false) :
    c ≠ '\t' ∧ c ≠ '\n' ∧ c ≠ '\r' := by
  refine ⟨?_, ?_, ?_⟩ <;> rintro rfl <;> simp [isPySpace] at h

/-! ### Dictionary lemmas -/

theorem dictGet_dictSet_self (st : List (String × String)) (k v : String) :
    dictGet (dictSet st k v) k = some v := by
  induction st with
  | nil => simp [dictSet, dictGet]
  | cons p rest ih =>
    obtain ⟨k', v'⟩ := p
    by_cases hk : k' = k
    · simp [dictSet, hk, dictGet]
    · simp [dictSet, hk, dictGet, ih]

theorem containsKey_false_iff (st : List (String × String)) (k : String) :
    containsKey st k = false ↔ ∀ p ∈ st, p.1 ≠ k := by
  induction st with
  | nil => simp [containsKey]
  | cons p rest ih =>
    obtain ⟨k', v'⟩ := p
    simp [containsKey, ih]

theorem dictGet_eq_none {st : List (String × String)} {k : String}
    (h : containsKey st k = false) : dictGet st k = none := by
  induction st with
  | nil => rfl
  | cons p rest ih =>
    obtain ⟨k', v'⟩ := p
    simp [containsKey] at h
    simp [dictGet, h.1, ih h.2]

theorem dictSet_append {st : List (String × String)} {k : String} (v : String)
    (h : containsKey st k = false) : dictSet st k v = st ++ [(k, v)] := by
  induction st with
  | nil => rfl
  | cons p rest ih =>
    obtain ⟨k', v'⟩ := p
    simp [containsKey] at h
    simp [dictSet, h.1, ih h.2]

theorem mem_dictSet {st : List (String × String)} {k v : String}
    {p : String × String} (hp : p ∈ dictSet st k v) : p ∈ st ∨ p = (k, v) := by
  induction st with
  | nil => simpa [dictSet] using hp
  | cons q rest ih =>
    obtain ⟨k', v'⟩ := q
    by_cases hk : k' = k
    · simp [dictSet, hk] at hp
      rcases hp with h | h
      · exact Or.inr h
      · exact Or.inl (by simp [h])
    · simp [dictSet, hk] at hp
      rcases hp with h | h
      · exact Or.inl (by simp [h])
      · rcases ih h with h' | h'
        · exact Or.inl (by simp [h'])
        · exact Or.inr h'

theorem mem_keys_dictSet {st : List (String × String)} {k v a : String}
    (ha : a ∈ (dictSet st k v).map Prod.fst) :
    a ∈ st.map Prod.fst ∨ a = k := by
  simp only [List.mem_map] at ha
  obtain ⟨p, hp, hpa⟩ := ha
  rcases mem_dictSet hp with h | h
  · exact Or.inl (List.mem_map.2 ⟨p, h, hpa⟩)
  · subst h; exact Or.inr hpa.symm

theorem keys_dictSet_of_contains {st : List (String × String)} {k : String}
    (v : String) (h : containsKey st k = true) :
    (dictSet st k v).map Prod.fst = st.map Prod.fst := by
  induction st with
  | nil => simp [containsKey] at h
  | cons p rest ih =>
    obtain ⟨k', v'⟩ := p
    by_cases hk : k' = k
    · simp [dictSet, hk]
    · simp [containsKey, hk] at h
      simp [dictSet, hk, ih h]

theorem keysNodup_dictSet {st : List (String × String)} (k v : String)
    (h : keysNodup st) : keysNodup (dictSet st k v) := by
  unfold keysNodup at h ⊢
  cases hc : containsKey st k with
  | true => rw [keys_dictSet_of_contains v hc]; exact h
  | false =>
    rw [dictSet_append v hc]
    have hk : k ∉ st.map Prod.fst := by
      rw [containsKey_false_iff] at hc
      intro hmem
      obtain ⟨p, hp, hpk⟩ := List.mem_map.1 hmem
      exact hc p hp hpk
    rw [List.map_append]
    refine List.Nodup.append h (List.nodup_singleton k) ?_
    intro a ha hb
    simp only [List.map_cons, List.map_nil, List.mem_singleton] at hb
    exact hk (hb ▸ ha)

theorem cleanStore_iff {st : List (String × String)} :
    cleanStore st = true ↔ ∀ p ∈ st, isToken p.1 = true ∧ isToken p.2 = true := by
  simp [cleanStore, List.all_eq_true]

theorem cleanStore_dictSet {st : List (String × String)} {k v : String}
    (h : cleanStore st = true) (hk : isToken k = true) (hv : isToken v = true) :
    cleanStore (dictSet st k v) = true := by
  rw [cleanStore_iff] at h ⊢
  intro p hp
  rcases mem_dictSet hp with h' | h'
  · exact h p h'
  · subst h'; exact ⟨hk, hv⟩

theorem mem_dictDel {st : List (String × String)} {k : String}
    {p : String × String} (hp : p ∈ dictDel st k) : p ∈ st := by
  induction st with
  | nil => simp [dictDel] at hp
  | cons q rest ih =>
    obtain ⟨k', v'⟩ := q
    by_cases hk : k' = k
    · simp [dictDel, hk] at hp
      exact List.mem_cons_of_mem _ hp
    · simp [dictDel, hk] at hp
      rcases hp with h | h
      · exact List.mem_cons.2 (Or.inl (by simp [h]))
      · exact List.mem_cons_of_mem _ (ih h)

theorem cleanStore_dictDel {st : List (String × String)} {k : String}
    (h : cleanStore st = true) : cleanStore (dictDel st k) = true := by
  rw [cleanStore_iff] at h ⊢
  exact fun p hp => h p (mem_dictDel hp)

theorem keys_dictDel_sublist (st : List (String × String)) (k : String) :
    List.Sublist ((dictDel st k).map Prod.fst) (st.map Prod.fst) := by
  induction st with
  | nil => simp [dictDel]
  | cons p rest ih =>
    obtain ⟨k', v'⟩ := p
    by_cases hk : k' = k
    · rw [show dictDel ((k', v') :: rest) k = rest from by simp [dictDel, hk]]
      simp only [List.map_cons]
      exact List.sublist_cons_self _ _
    · rw [show dictDel ((k', v') :: rest) k = (k', v') :: dictDel rest k from by
        simp [dictDel, hk]]
      simp only [List.map_cons]
      exact ih.cons₂ k'

theorem keysNodup_dictDel {st : List (String × String)} (k : String)
    (h : keysNodup st) : keysNodup (dictDel st k) :=
  List.Nodup.sublist (keys_dictDel_sublist st k) h

theorem containsKey_dictDel_self {st : List (String × String)} {k : String}
    (h : keysNodup st) : containsKey (dictDel st k) k = false := by
  induction st with
  | nil => rfl
  | cons p rest ih =>
    obtain ⟨k', v'⟩ := p
    unfold keysNodup at h
    simp only [List.map_cons, List.nodup_cons] at h
    by_cases hk : k' = k
    · rw [show dictDel ((k', v') :: rest) k = rest from by simp [dictDel, hk]]
      rw [containsKey_false_iff]
      intro p hp hcontra
      exact h.1 (List.mem_map.2 ⟨p, hp, hk ▸ hcontra⟩)
    · rw [show dictDel ((k', v') :: rest) k = (k', v') :: dictDel rest k from by
        simp [dictDel, hk]]
      simp [containsKey, hk, ih h.2]

/-! ### Line-splitting lemmas -/

theorem splitLines_newline (b : List Char) :
    splitLines ('\n' :: b) = [] :: splitLines b := by
  cases b with
  | nil => rfl
  | cons c rest => simp [splitLines]

theorem splitLines_clean_append {a : List Char} (b : List Char)
    (h : ∀ c ∈ a, c ≠ '\n' ∧ c ≠ '\r') :
    splitLines (a ++ '\n' :: b) = a :: splitLines b := by
  induction a with
  | nil => simpa using splitLines_newline b
  | cons c a' ih =>
    have hc := h c (List.mem_cons_self c a')
    have hrest : ∀ c' ∈ a', c' ≠ '\n' ∧ c' ≠ '\r' := fun c' hc' =>
      h c' (List.mem_cons_of_mem _ hc')
    obtain ⟨c2, rest2, h2⟩ := List.exists_cons_of_ne_nil
      (show a' ++ '\n' :: b ≠ [] by simp)
    rw [List.cons_append, h2]
    simp only [splitLines, hc.1, hc.2, if_false]
    rw [← h2, ih hrest]

theorem splitLines_no_nlcr (l : List Char) :
    ∀ p ∈ splitLines l, ∀ c ∈ p, c ≠ '\n' ∧ c ≠ '\r' := by
  induction l using splitLines.induct with
  | case1 => simp [splitLines]
  | case2 c hc =>
    intro p hp c' hc'
    rw [show splitLines [c] = [[], []] from by simp [splitLines, hc]] at hp
    rcases List.mem_cons.1 hp with rfl | hp
    · simp at hc'
    · simp at hp; subst hp; simp at hc'
  | case3 c hc =>
    intro p hp c' hc'
    rw [show splitLines [c] = [[c]] from by simp [splitLines, hc]] at hp
    simp at hp; subst hp
    simp at hc'; subst hc'
    simpa [not_or] using hc
  | case4 c2 rest ih =>
    intro p hp c' hc'
    rw [show splitLines ('\n' :: c2 :: rest) = [] :: splitLines (c2 :: rest) from by
      simp [splitLines]] at hp
    rcases List.mem_cons.1 hp with rfl | hp
    · simp at hc'
    · exact ih p hp c' hc'
  | case5 rest h ih =>
    intro p hp c' hc'
    rw [show splitLines ('\r' :: '\n' :: rest) = [] :: splitLines rest from by
      simp [splitLines]] at hp
    rcases List.mem_cons.1 hp with rfl | hp
    · simp at hc'
    · exact ih p hp c' hc'
  | case6 c2 rest h2 h ih =>
    intro p hp c' hc'
    rw [show splitLines ('\r' :: c2 :: rest) = [] :: splitLines (c2 :: rest) from by
      simp [splitLines, h2]] at hp
    rcases List.mem_cons.1 hp with rfl | hp
    · simp at hc'
    · exact ih p hp c' hc'
  | case7 c1 c2 rest h1 h2 heq ih =>
    intro p hp c' hc'
    rw [show splitLines (c1 :: c2 :: rest) = [[c1]] from by
      simp [splitLines, h1, h2, heq]] at hp
    simp at hp; subst hp
    simp at hc'; subst hc'
    exact ⟨h1, h2⟩
  | case8 c1 c2 rest h1 h2 ll ls heq ih =>
    intro p hp c' hc'
    rw [show splitLines (c1 :: c2 :: rest) = (c1 :: ll) :: ls from by
      simp [splitLines, h1, h2, heq]] at hp
    rcases List.mem_cons.1 hp with rfl | hp
    · rcases List.mem_cons.1 hc' with rfl | hc'
      · exact ⟨h1, h2⟩
      · exact ih ll (heq ▸ List.mem_cons_self ll ls) c' hc'
    · exact ih p (heq ▸ List.mem_cons_of_mem ll hp) c' hc'

/-! ### Strip lemmas -/

theorem dropWhile_head_false {p : Char → Bool} {l : List Char} {c : Char}
    {rest : List Char} (h : l.dropWhile p = c :: rest) : p c = false := by
  induction l with
  | nil => simp [List.dropWhile] at h
  | cons c' l' ih =>
    rw [List.dropWhile_cons] at h
    by_cases hc' : p c' = true
    · rw [if_pos hc'] at h; exact ih h
    · rw [if_neg hc'] at h
      cases h
      simpa using hc'

theorem lstrip_cons_of_not_space {c : Char} (l : List Char)
    (h : isPySpace c = false) : lstrip (c :: l) = c :: l := by
  simp [lstrip, List.dropWhile_cons, h]

theorem rstrip_append_of_not_space {c : Char} (l : List Char)
    (h : isPySpace c = false) : rstrip (l ++ [c]) = l ++ [c] := by
  simp [rstrip, List.dropWhile_cons, h]

theorem rstrip_eq_append (l : List Char) : ∃ t, l = rstrip l ++ t := by
  obtain ⟨s, hs⟩ := (List.dropWhile_suffix (p := isPySpace) (l := l.reverse))
  refine ⟨s.reverse, ?_⟩
  have h2 := congrArg List.reverse hs
  simp only [List.reverse_append, List.reverse_reverse] at h2
  rw [rstrip]
  exact h2.symm

theorem mem_of_mem_lstrip {c : Char} {l : List Char} (h : c ∈ lstrip l) : c ∈ l :=
  (List.dropWhile_sublist _).subset h

theorem mem_of_mem_rstrip {c : Char} {l : List Char} (h : c ∈ rstrip l) : c ∈ l := by
  unfold rstrip at h
  rw [List.mem_reverse] at h
  exact List.mem_reverse.1 ((List.dropWhile_sublist _).subset h)

theorem mem_of_mem_pyStripL {c : Char} {l : List Char} (h : c ∈ pyStripL l) : c ∈ l :=
  mem_of_mem_lstrip (mem_of_mem_rstrip h)

theorem pyStripL_head_not_space {l : List Char} {c : Char} {rest : List Char}
    (h : pyStripL l = c :: rest) : isPySpace c = false := by
  unfold pyStripL at h
  obtain ⟨t, ht⟩ := rstrip_eq_append (lstrip l)
  rw [h, List.cons_append] at ht
  exact dropWhile_head_false (show List.dropWhile isPySpace l = c :: (rest ++ t) from ht)

theorem pyStripL_last_not_space {l : List Char} {init : List Char} {c : Char}
    (h : pyStripL l = init ++ [c]) : isPySpace c = false := by
  unfold pyStripL rstrip at h
  have h2 := congrArg List.reverse h
  simp only [List.reverse_reverse, List.reverse_append] at h2
  exact dropWhile_head_false (l := (lstrip l).reverse) (by rw [h2]; rfl)

/-! ### First-tab splitting lemmas -/

theorem splitFirstTab_append {a : List Char} (b : List Char) (h : '\t' ∉ a) :
    splitFirstTab (a ++ '\t' :: b) = some (a, b) := by
  induction a with
  | nil => simp [splitFirstTab]
  | cons c a' ih =>
    have hc : ¬(c = '\t') := fun hc => h (hc ▸ List.mem_cons_self c a')
    simp [splitFirstTab, hc, ih fun hmem => h (List.mem_cons_of_mem _ hmem)]

theorem splitFirstTab_eq {l a b : List Char} (h : splitFirstTab l = some (a, b)) :
    l = a ++ '\t' :: b ∧ '\t' ∉ a := by
  induction l generalizing a b with
  | nil => simp [splitFirstTab] at h
  | cons c rest ih =>
    by_cases hc : c = '\t'
    · subst hc
      simp [splitFirstTab] at h
      obtain ⟨rfl, rfl⟩ := h
      simp
    · cases hres : splitFirstTab rest with
      | none => simp [splitFirstTab, hc, hres] at h
      | some p =>
        obtain ⟨p1, p2⟩ := p
        simp [splitFirstTab, hc, hres] at h
        obtain ⟨h1, h2⟩ := h
        obtain ⟨hrest, htab⟩ := ih (a := p1) (b := p2) (by rw [hres])
        subst h1 h2
        constructor
        · rw [List.cons_append, ← hrest]
        · intro hmem
          rcases List.mem_cons.1 hmem with h' | h'
          · exact hc h'.symm
          · exact htab h'

/-! ### Good keys and values -/

theorem goodKey_head {k : String} (h : goodKey k = true) :
    ∃ c rest, k.data = c :: rest ∧ isPySpace c = false := by
  unfold goodKey at h
  cases hd : k.data with
  | nil => rw [hd] at h; simp at h
  | cons c rest =>
    rw [hd] at h
    simp only [Bool.and_eq_true, Bool.not_eq_true'] at h
    exact ⟨c, rest, rfl, h.1⟩

theorem goodKey_all {k : String} (h : goodKey k = true) :
    ∀ c ∈ k.data, c ≠ '\t' ∧ c ≠ '\n' ∧ c ≠ '\r' := by
  unfold goodKey at h
  rw [Bool.and_eq_true] at h
  intro c hc
  have := List.all_eq_true.1 h.2 c hc
  simpa [and_assoc] using this

theorem goodVal_last {v : String} (h : goodVal v = true) :
    ∃ init c, v.data = init ++ [c] ∧ isPySpace c = false := by
  unfold goodVal at h
  rcases List.eq_nil_or_concat v.data with hd | ⟨init, c, hd⟩
  · rw [hd] at h; simp at h
  · rw [List.concat_eq_append] at hd
    rw [hd, List.getLast?_concat] at h
    simp only [Bool.and_eq_true, Bool.not_eq_true'] at h
    exact ⟨init, c, hd, h.1⟩

theorem goodVal_all {v : String} (h : goodVal v = true) :
    ∀ c ∈ v.data, c ≠ '\n' ∧ c ≠ '\r' := by
  unfold goodVal at h
  rw [Bool.and_eq_true] at h
  intro c hc
  have := List.all_eq_true.1 h.2 c hc
  simpa using this

theorem goodKey_of_isToken {k : String} (h : isToken k = true) : goodKey k = true := by
  rw [isToken_iff] at h
  obtain ⟨hne, hall⟩ := h
  unfold goodKey
  cases hd : k.data with
  | nil => exact absurd hd hne
  | cons c rest =>
    rw [Bool.and_eq_true]
    constructor
    · simpa using hall c (hd ▸ List.mem_cons_self c rest)
    · rw [List.all_eq_true]
      intro c' hc'
      have := not_space_ne (hall c' (hd ▸ List.mem_cons.2 (List.mem_cons.1 hc')))
      simp [this.1, this.2.1, this.2.2]

theorem goodVal_of_isToken {v : String} (h : isToken v = true) : goodVal v = true := by
  rw [isToken_iff] at h
  obtain ⟨hne, hall⟩ := h
  unfold goodVal
  rcases List.eq_nil_or_concat v.data with hd | ⟨init, c, hd⟩
  · exact absurd hd hne
  · rw [List.concat_eq_append] at hd
    rw [hd, List.getLast?_concat]
    rw [Bool.and_eq_true]
    constructor
    · simpa using hall c (hd ▸ List.mem_append.2 (Or.inr (List.mem_singleton.2 rfl)))
    · rw [List.all_eq_true]
      intro c' hc'
      have := not_space_ne (hall c' (hd ▸ hc'))
      simp [this.2.1, this.2.2]

theorem entryLine_no_nlcr {p : String × String} (hk : goodKey p.1 = true)
    (hv : goodVal p.2 = true) : ∀ c ∈ entryLine p, c ≠ '\n' ∧ c ≠ '\r' := by
  intro c hc
  unfold entryLine at hc
  rcases List.mem_append.1 hc with h | h
  · exact (goodKey_all hk c h).2
  · rcases List.mem_cons.1 h with rfl | h
    · exact ⟨by decide, by decide⟩
    · exact goodVal_all hv c h

/-! ### Parsing a single line -/

theorem pyStripL_entryLine {k v : String} (hk : goodKey k = true)
    (hv : goodVal v = true) :
    pyStripL (k.data ++ '\t' :: v.data) = k.data ++ '\t' :: v.data := by
  obtain ⟨c, rest, hd, hc⟩ := goodKey_head hk
  obtain ⟨init, c', hd', hc'⟩ := goodVal_last hv
  unfold pyStripL
  rw [hd, List.cons_append, lstrip_cons_of_not_space _ hc, ← List.cons_append, ← hd]
  rw [hd', show k.data ++ '\t' :: (init ++ [c']) = (k.data ++ '\t' :: init) ++ [c'] from by
    simp]
  rw [rstrip_append_of_not_space _ hc']

theorem parseLine_entryLine {k v : String} (hk : goodKey k = true)
    (hv : goodVal v = true) : parseLine (entryLine (k, v)) = some (k, v) := by
  unfold parseLine entryLine
  rw [pyStripL_entryLine hk hv]
  obtain ⟨c, rest, hd, _⟩ := goodKey_head hk
  have hne : k.data ++ '\t' :: v.data ≠ [] := by simp
  rw [if_neg hne]
  have htab : '\t' ∉ k.data := fun hmem => (goodKey_all hk _ hmem).1 rfl
  rw [splitFirstTab_append _ htab]

theorem parseLine_nil : parseLine [] = none := rfl

theorem parseLine_good {l : List Char} {k v : String}
    (hl : ∀ c ∈ l, c ≠ '\n' ∧ c ≠ '\r')
    (h : parseLine l = some (k, v)) : goodKey k = true ∧ goodVal v = true := by
  unfold parseLine at h
  by_cases hst : pyStripL l = []
  · simp [hst] at h
  · rw [if_neg hst] at h
    cases hsp : splitFirstTab (pyStripL l) with
    | none => rw [hsp] at h; simp at h
    | some p =>
      obtain ⟨k0, v0⟩ := p
      rw [hsp] at h
      simp only [Option.some.injEq, Prod.mk.injEq] at h
      obtain ⟨hk0, hv0⟩ := h
      obtain ⟨hsplit, htab⟩ := splitFirstTab_eq hsp
      have hmem : ∀ c ∈ pyStripL l, c ≠ '\n' ∧ c ≠ '\r' := fun c hc =>
        hl c (mem_of_mem_pyStripL hc)
      -- the key is nonempty and starts with a non-space character
      have hk0ne : k0 ≠ [] := by
        intro hnil
        rw [hnil, List.nil_append] at hsplit
        have := pyStripL_head_not_space hsplit
        simp [isPySpace] at this
      obtain ⟨c, krest, hkd⟩ := List.exists_cons_of_ne_nil hk0ne
      have hhead : isPySpace c = false := by
        have hx : pyStripL l = c :: (krest ++ '\t' :: v0) := by
          rw [hsplit, hkd, List.cons_append]
        exact pyStripL_head_not_space hx
      -- the value is nonempty and ends with a non-space character
      have hv0ne : v0 ≠ [] := by
        intro hnil
        rw [hnil] at hsplit
        have hx : pyStripL l = k0 ++ ['\t'] := by rw [hsplit]
        have := pyStripL_last_not_space hx
        simp [isPySpace] at this
      obtain ⟨vinit, c', hvd⟩ := List.eq_nil_or_concat v0 |>.resolve_left hv0ne
      rw [List.concat_eq_append] at hvd
      have hlast : isPySpace c' = false := by
        have hx : pyStripL l = (k0 ++ '\t' :: vinit) ++ [c'] := by
          rw [hsplit, hvd]
          simp
        exact pyStripL_last_not_space hx
      constructor
      · subst hk0
        unfold goodKey
        rw [hkd]
        rw [Bool.and_eq_true]
        refine ⟨by simpa using hhead, ?_⟩
        rw [List.all_eq_true]
        intro c'' hc''
        have h1 : c'' ∈ pyStripL l := by
          rw [hsplit]
          exact List.mem_append.2 (Or.inl (hkd ▸ hc''))
        have h2 := hmem c'' h1
        have h3 : c'' ≠ '\t' := fun hh => htab (hh ▸ hkd ▸ hc'')
        simp [h2.1, h2.2, h3]
      · subst hv0
        unfold goodVal
        rw [hvd, List.getLast?_concat]
        rw [Bool.and_eq_true]
        refine ⟨by simpa using hlast, ?_⟩
        rw [List.all_eq_true]
        intro c'' hc''
        have h1 : c'' ∈ pyStripL l := by
          rw [hsplit]
          exact List.mem_append.2 (Or.inr (List.mem_cons_of_mem _ (hvd ▸ hc'')))
        have h2 := hmem c'' h1
        simp [h2.1, h2.2]

/-! ### Serialization and loading -/

theorem serializeL_cons (p : String × String) (rest : List (String × String)) :
    serializeL (p :: rest) = entryLine p ++ '\n' :: serializeL rest := by
  obtain ⟨k, v⟩ := p
  simp [serializeL, entryLine]

theorem splitLines_serializeL {st : List (String × String)}
    (h : ∀ p ∈ st, ∀ c ∈ entryLine p, c ≠ '\n' ∧ c ≠ '\r') :
    splitLines (serializeL st) = st.map entryLine ++ [[]] := by
  induction st with
  | nil => rfl
  | cons p rest ih =>
    rw [serializeL_cons, splitLines_clean_append _ (h p (List.mem_cons_self p rest)),
      ih fun q hq => h q (List.mem_cons_of_mem _ hq)]
    simp

theorem cleanStore_entryLines {st : List (String × String)} (h : cleanStore st = true) :
    ∀ p ∈ st, ∀ c ∈ entryLine p, c ≠ '\n' ∧ c ≠ '\r' := fun p hp =>
  entryLine_no_nlcr (goodKey_of_isToken ((cleanStore_iff.1 h) p hp).1)
    (goodVal_of_isToken ((cleanStore_iff.1 h) p hp).2)

theorem keysNodup_cons {p : String × String} {rest : List (String × String)}
    (h : keysNodup (p :: rest)) :
    (∀ q ∈ rest, q.1 ≠ p.1) ∧ keysNodup rest := by
  unfold keysNodup at h ⊢
  simp only [List.map_cons, List.nodup_cons] at h
  exact ⟨fun q hq hcontra => h.1 (List.mem_map.2 ⟨q, hq, hcontra⟩), h.2⟩

theorem containsKey_append (a b : List (String × String)) (k : String) :
    containsKey (a ++ b) k = (containsKey a k || containsKey b k) := by
  induction a with
  | nil => simp [containsKey]
  | cons p rest ih =>
    obtain ⟨k', v'⟩ := p
    simp [containsKey, ih, Bool.or_assoc]

theorem loadLines_entryLines {st : List (String × String)}
    (acc : List (String × String)) (hclean : cleanStore st = true)
    (hnd : keysNodup st) (hdisj : ∀ p ∈ st, containsKey acc p.1 = false) :
    loadLines acc (st.map entryLine ++ [[]]) = acc ++ st := by
  induction st generalizing acc with
  | nil => simp [loadLines, parseLine_nil]
  | cons p rest ih =>
    obtain ⟨k, v⟩ := p
    have h1 := (cleanStore_iff.1 hclean) (k, v) (List.mem_cons_self _ _)
    obtain ⟨hout, hnd'⟩ := keysNodup_cons hnd
    have hcleanr : cleanStore rest = true := by
      rw [cleanStore_iff]
      exact fun q hq => (cleanStore_iff.1 hclean) q (List.mem_cons_of_mem _ hq)
    rw [List.map_cons, List.cons_append]
    rw [show loadLines acc (entryLine (k, v) :: (rest.map entryLine ++ [[]]))
        = loadLines (dictSet acc k v) (rest.map entryLine ++ [[]]) from by
      simp [loadLines,
        parseLine_entryLine (goodKey_of_isToken h1.1) (goodVal_of_isToken h1.2)]]
    rw [dictSet_append v (hdisj (k, v) (List.mem_cons_self _ _))]
    rw [ih (acc ++ [(k, v)]) hcleanr hnd' ?_]
    · simp
    · intro q hq
      rw [containsKey_append]
      have h2 : containsKey acc q.1 = false := hdisj q (List.mem_cons_of_mem _ hq)
      have h3 : containsKey [(k, v)] q.1 = false := by
        simp [containsKey]
        exact fun hcontra => hout q hq (by rw [hcontra])
      rw [h2, h3]
      rfl

theorem loadLines_mem {lines : List (List Char)} {acc : List (String × String)}
    (hl : ∀ l ∈ lines, ∀ c ∈ l, c ≠ '\n' ∧ c ≠ '\r') :
    ∀ p ∈ loadLines acc lines,
      p ∈ acc ∨ (goodKey p.1 = true ∧ goodVal p.2 = true) := by
  induction lines generalizing acc with
  | nil => exact fun p hp => Or.inl hp
  | cons l rest ih =>
    intro p hp
    have hrest : ∀ l' ∈ rest, ∀ c ∈ l', c ≠ '\n' ∧ c ≠ '\r' := fun l' hl' =>
      hl l' (List.mem_cons_of_mem _ hl')
    cases hpl : parseLine l with
    | none =>
      rw [show loadLines acc (l :: rest) = loadLines acc rest from by
        simp [loadLines, hpl]] at hp
      exact ih hrest p hp
    | some q =>
      obtain ⟨k, v⟩ := q
      rw [show loadLines acc (l :: rest) = loadLines (dictSet acc k v) rest from by
        simp [loadLines, hpl]] at hp
      rcases ih hrest p hp with h | h
      · rcases mem_dictSet h with h' | h'
        · exact Or.inl h'
        · subst h'
          exact Or.inr (parseLine_good (hl l (List.mem_cons_self _ _)) hpl)
      · exact Or.inr h

theorem mkFresh_serialize {st : List (String × String)} (hc : cleanStore st = true)
    (hn : keysNodup st) :
    (KeyValueStore.mkFresh (some (serialize st))).store = st := by
  have h0 : (KeyValueStore.mkFresh (some (serialize st))).store
      = loadLines [] (splitLines (serializeL st)) := rfl
  rw [h0, splitLines_serializeL (cleanStore_entryLines hc),
    loadLines_entryLines [] hc hn (fun p _ => rfl)]
  simp

/-! ### File lines for a key -/

theorem lineKey_append {a : List Char} (b : List Char) (h : '\t' ∉ a) :
    lineKey (a ++ '\t' :: b) = a := by
  induction a with
  | nil => simp [lineKey]
  | cons c a' ih =>
    have hc : ¬(c = '\t') := fun hc => h (hc ▸ List.mem_cons_self _ _)
    rw [List.cons_append, lineKey, List.takeWhile_cons, if_pos (by simpa using hc)]
    rw [show List.takeWhile (fun c => decide (c ≠ '\t')) (a' ++ '\t' :: b)
        = lineKey (a' ++ '\t' :: b) from rfl]
    rw [ih fun hm => h (List.mem_cons_of_mem _ hm)]

theorem filter_keys_dictSet {st : List (String × String)} {k : String} (v : String)
    (hnd : keysNodup st) :
    (dictSet st k v).filter (fun p => p.1 = k) = [(k, v)] := by
  induction st with
  | nil => simp [dictSet]
  | cons p rest ih =>
    obtain ⟨k', v'⟩ := p
    obtain ⟨hout, hnd'⟩ := keysNodup_cons hnd
    by_cases hk : k' = k
    · subst hk
      rw [show dictSet ((k', v') :: rest) k' v = (k', v) :: rest from by simp [dictSet]]
      rw [List.filter_cons, if_pos (by simp)]
      rw [List.filter_eq_nil_iff.2 (fun q hq => by simpa using hout q hq)]
    · rw [show dictSet ((k', v') :: rest) k v = (k', v') :: dictSet rest k v from by
        simp [dictSet, hk]]
      rw [List.filter_cons, if_neg (by simpa using hk)]
      exact ih hnd'

/-! ### Claim theorems -/

/-- C1: for every protocol key `k` and value `v` (nonempty, whitespace-free
tokens, the only keys and values the command interface can produce) and
every well-formed store state, after `set(k, v)` returns, `get(k)` returns
`v`, and the persistence file contains exactly one line whose key field is
`k`, and that line carries value `v`. -/
theorem set_then_get_and_one_file_line (s : KeyValueStore) (k v : String)
    (hk : isToken k = true) (hv : isToken v = true)
    (hs : cleanStore s.store = true) (hn : keysNodup s.store) :
    (s.set true k v).2.get k = v ∧
    (s.set true k v).2.file = some (serialize (dictSet s.store k v)) ∧
    linesForKey (serialize (dictSet s.store k v)) k = [k.data ++ '\t' :: v.data] := by
  have hclean' : cleanStore (dictSet s.store k v) = true := cleanStore_dictSet hs hk hv
  have hnd' : keysNodup (dictSet s.store k v) := keysNodup_dictSet k v hn
  refine ⟨?_, rfl, ?_⟩
  · simp [KeyValueStore.get, KeyValueStore.set, KeyValueStore.save, dictGet_dictSet_self]
  · unfold linesForKey
    rw [show (serialize (dictSet s.store k v)).data = serializeL (dictSet s.store k v)
      from rfl]
    rw [splitLines_serializeL (cleanStore_entryLines hclean')]
    rw [List.filter_append]
    have hkne : k.data ≠ [] := (isToken_iff.1 hk).1
    rw [show List.filter (fun l => decide (lineKey l = k.data)) [[]] = [] from by
      simp [lineKey]
      exact fun h => hkne h]
    rw [List.filter_map ..]
    have hcong : ∀ p ∈ dictSet s.store k v,
        ((fun l => decide (lineKey l = k.data)) ∘ entryLine) p = decide (p.1 = k) := by
      intro p hp
      have h1 := (cleanStore_iff.1 hclean') p hp
      have htab : '\t' ∉ p.1.data := fun hm =>
        (not_space_ne ((isToken_iff.1 h1.1).2 _ hm)).1 rfl
      show decide (lineKey (entryLine p) = k.data) = decide (p.1 = k)
      rw [show lineKey (entryLine p) = p.1.data from lineKey_append _ htab]
      apply decide_eq_decide.2
      exact ⟨fun h => string_data_inj h, fun h => h ▸ rfl⟩
    rw [List.filter_congr hcong, filter_keys_dictSet v hn]
    simp [entryLine]

/-- C1 witness: the property instantiated on the empty store with
`k = "a"`, `v = "1"`. -/
theorem set_then_get_and_one_file_line_witness :
    (KeyValueStore.set true ⟨[], none⟩ "a" "1").2.get "a" = "1" ∧
    (KeyValueStore.set true ⟨[], none⟩ "a" "1").2.file
      = some (serialize (dictSet [] "a" "1")) ∧
    linesForKey (serialize (dictSet [] "a" "1")) "a"
      = [("a" : String).data ++ '\t' :: ("1" : String).data] :=
  set_then_get_and_one_file_line ⟨[], none⟩ "a" "1" (by decide) (by decide)
    (by decide) (by simp [keysNodup])

/-- C2: after a successful `set`, and after a successful `remove` of a
present key, the file contents equal the serialization of the in-memory
mapping (the save happens before the operation returns); `remove` of an
absent key changes nothing. -/
theorem mutation_persists_synchronously (s : KeyValueStore) (k v : String) :
    ((s.set true k v).2.file = some (serialize (s.set true k v).2.store)) ∧
    (containsKey s.store k = true →
      (s.remove true k).2.file = some (serialize (s.remove true k).2.store)) ∧
    (containsKey s.store k = false → (s.remove true k).2 = s) := by
  refine ⟨rfl, ?_, ?_⟩
  · intro h
    simp [KeyValueStore.remove, h, KeyValueStore.save]
  · intro h
    simp [KeyValueStore.remove, h]

/-- C2 witness: both `remove` branches instantiated on a one-entry store. -/
theorem mutation_persists_synchronously_witness :
    ((KeyValueStore.remove true ⟨[("a", "1")], none⟩ "a").2.file
      = some (serialize (KeyValueStore.remove true ⟨[("a", "1")], none⟩ "a").2.store)) ∧
    ((KeyValueStore.remove true ⟨[("a", "1")], none⟩ "b").2
      = (⟨[("a", "1")], none⟩ : KeyValueStore)) :=
  ⟨(mutation_persists_synchronously ⟨[("a", "1")], none⟩ "a" "x").2.1 (by decide),
   (mutation_persists_synchronously ⟨[("a", "1")], none⟩ "b" "x").2.2 (by decide)⟩

/-- C3: for every well-formed mapping of distinct token entries, saving the
store and constructing a fresh store that loads from the saved file yields
a mapping with exactly the same key-value pairs (order-independent
equality as a set of pairs). -/
theorem save_then_fresh_load_roundtrip (s : KeyValueStore)
    (h1 : cleanStore s.store = true) (h2 : keysNodup s.store) :
    ∀ k v : String,
      (k, v) ∈ (KeyValueStore.mkFresh (s.save true).file).store ↔ (k, v) ∈ s.store := by
  intro k v
  rw [show (s.save true).file = some (serialize s.store) from rfl,
    mkFresh_serialize h1 h2]

/-- C3 witness: a two-entry store round-trips. -/
theorem save_then_fresh_load_roundtrip_witness :
    ("a", "1") ∈ (KeyValueStore.mkFresh
      ((⟨[("a", "1"), ("b", "2")], none⟩ : KeyValueStore).save true).file).store :=
  (save_then_fresh_load_roundtrip ⟨[("a", "1"), ("b", "2")], none⟩ (by decide)
    (by simp [keysNodup]) "a" "1").mpr (by simp)

/-- C4: `remove` of an absent key returns the not-found text and leaves the
state (mapping and file) unchanged; `remove` of a present key returns the
confirmation, deletes the key, persists, and the key is absent from a
fresh load of the resulting file. -/
theorem remove_absent_and_present (s : KeyValueStore) (k : String)
    (hs : cleanStore s.store = true) (hn : keysNodup s.store) :
    (containsKey s.store k = false →
      s.remove true k = ("Key '" ++ k ++ "' not found.", s)) ∧
    (containsKey s.store k = true →
      (s.remove true k).1 = "Removed key '" ++ k ++ "'.\n" ∧
      containsKey (s.remove true k).2.store k = false ∧
      (s.remove true k).2.file = some (serialize (dictDel s.store k)) ∧
      containsKey (KeyValueStore.mkFresh (s.remove true k).2.file).store k = false) := by
  constructor
  · intro h
    simp [KeyValueStore.remove, h]
  · intro h
    have hstore : (s.remove true k).2.store = dictDel s.store k := by
      simp [KeyValueStore.remove, h, KeyValueStore.save]
    have hfile : (s.remove true k).2.file = some (serialize (dictDel s.store k)) := by
      simp [KeyValueStore.remove, h, KeyValueStore.save]
    refine ⟨by simp [KeyValueStore.remove, h], ?_, hfile, ?_⟩
    · rw [hstore]
      exact containsKey_dictDel_self hn
    · rw [hfile, mkFresh_serialize (cleanStore_dictDel hs) (keysNodup_dictDel k hn)]
      exact containsKey_dictDel_self hn

/-- C4 witness: both branches instantiated on a one-entry store. -/
theorem remove_absent_and_present_witness :
    (KeyValueStore.remove true ⟨[("a", "1")], none⟩ "b"
      = ("Key 'b' not found.", (⟨[("a", "1")], none⟩ : KeyValueStore))) ∧
    containsKey (KeyValueStore.mkFresh
      (KeyValueStore.remove true ⟨[("a", "1")], none⟩ "a").2.file).store "a" = false :=
  ⟨(remove_absent_and_present ⟨[("a", "1")], none⟩ "b" (by decide)
      (by simp [keysNodup])).1 (by decide),
   ((remove_absent_and_present ⟨[("a", "1")], none⟩ "a" (by decide)
      (by simp [keysNodup])).2 (by decide)).2.2.2⟩

/-- C5 counterexample: the interpreter does not check PRINT's arity.  On
the line `"PRINT extra"` (2 tokens) it does not return an error and it
does invoke the store: it returns the store listing. -/
theorem print_extra_token_invokes_store :
    CommandParser.parse_and_execute true ⟨[("a", "1")], none⟩ "PRINT extra"
      = ("[KEY]: a\t[VALUE]: 1\n", (⟨[("a", "1")], none⟩ : KeyValueStore)) := by
  decide

/-- C5 amended: arity is checked before dispatch for SET, GET and REMOVE
with exactly the listed error texts and no store access; but a line whose
first token is PRINT (case-insensitively) dispatches to `print_store`
regardless of its token count — PRINT arity is not checked. -/
theorem arity_checks_before_dispatch (writeOk : Bool) (s : KeyValueStore)
    (command : String) (t : List Char) (rest : List (List Char))
    (h : pyTokens (pyStrip command).data = t :: rest) :
    (pyUpper ⟨t⟩ = "SET" → rest.length ≠ 2 →
      CommandParser.parse_and_execute writeOk s command
        = ("ERROR: SET command requires 2 arguments: key and value\n", s)) ∧
    (pyUpper ⟨t⟩ = "GET" → rest.length ≠ 1 →
      CommandParser.parse_and_execute writeOk s command
        = ("ERROR: GET command requires 1 argument: key\n", s)) ∧
    (pyUpper ⟨t⟩ = "REMOVE" → rest.length ≠ 1 →
      CommandParser.parse_and_execute writeOk s command
        = ("ERROR: REMOVE command requires 1 argument: key\n", s)) ∧
    (pyUpper ⟨t⟩ = "PRINT" →
      CommandParser.parse_and_execute writeOk s command = (s.print_store, s)) := by
  have hne : ¬(pyStrip command = "") := by
    intro hc
    rw [hc] at h
    simp [pyTokens, pyTokensAux] at h
  refine ⟨?_, ?_, ?_, ?_⟩
  · intro hcmd hlen
    simp only [CommandParser.parse_and_execute, if_neg hne, h, hcmd, if_pos rfl]
    rcases rest with _ | ⟨a, _ | ⟨b, _ | ⟨c, tl⟩⟩⟩
    · rfl
    · rfl
    · exact absurd rfl hlen
    · rfl
  · intro hcmd hlen
    simp only [CommandParser.parse_and_execute, if_neg hne, h, hcmd]
    rw [if_pos trivial]
    rcases rest with _ | ⟨a, _ | ⟨b, tl⟩⟩
    · rfl
    · exact absurd rfl hlen
    · rfl
  · intro hcmd hlen
    simp only [CommandParser.parse_and_execute, if_neg hne, h, hcmd]
    rw [if_pos trivial]
    rcases rest with _ | ⟨a, _ | ⟨b, tl⟩⟩
    · rfl
    · exact absurd rfl hlen
    · rfl
  · intro hcmd
    simp only [CommandParser.parse_and_execute, if_neg hne, h, hcmd]
    rw [if_neg (by decide), if_neg (by decide), if_neg (by decide), if_pos trivial]

/-- C5 witness: the SET arity error on `"SET onlykey"`. -/
theorem arity_checks_before_dispatch_witness :
    CommandParser.parse_and_execute true ⟨[], none⟩ "SET onlykey"
      = ("ERROR: SET command requires 2 arguments: key and value\n",
         (⟨[], none⟩ : KeyValueStore)) :=
  (arity_checks_before_dispatch true ⟨[], none⟩ "SET onlykey"
    ("SET" : String).data [("onlykey" : String).data] (by decide)).1
    (by decide) (by decide)

/-- C6: when the file write inside `set` fails (the exception is caught in
`save`), `set` still returns the very confirmation text a successful set
returns, and the in-memory mapping still holds the new entry. -/
theorem set_acknowledges_despite_write_failure (s : KeyValueStore) (k v : String) :
    (s.set false k v).1 = "Added key '" ++ k ++ "' with value '" ++ v ++ "'\n" ∧
    (s.set false k v).1 = (s.set true k v).1 ∧
    dictGet (s.set false k v).2.store k = some v := by
  exact ⟨rfl, rfl, dictGet_dictSet_self s.store k v⟩

/-- C7: starting from an empty store, the scenario
SET a 1 / GET a / REMOVE a / GET a / PRINT produces exactly the five
expected responses in order. -/
theorem scenario_responses :
    (runCmds true ⟨[], none⟩ ["SET a 1", "GET a", "REMOVE a", "GET a", "PRINT"]).1
      = ["Added key 'a' with value '1'\n", "1", "Removed key 'a'.\n",
         "Key 'a' not found.", "Store is empty.\n"] := by
  decide

/-- C9 counterexample: the entry `("k", "v ")` has a tab-free key and no
newline anywhere, yet it does not survive save-then-load: the trailing
space of the value is stripped by `line.strip()` during `load`. -/
theorem roundtrip_condition_counterexample :
    (∀ c ∈ ("k" : String).data, c ≠ '\t') ∧
    (∀ c ∈ ("k" : String).data, c ≠ '\n') ∧
    (∀ c ∈ ("v " : String).data, c ≠ '\n') ∧
    (KeyValueStore.mkFresh (some (serialize [("k", "v ")]))).store ≠ [("k", "v ")] := by
  refine ⟨by decide, by decide, by decide, by decide⟩

/-- C9 amended: a single entry `(k, v)` survives save-then-load exactly
when: `k` is nonempty, starts with a non-whitespace character and contains
no tab, newline or carriage return; and `v` is nonempty, ends with a
non-whitespace character and contains no newline or carriage return.
(Tabs inside `v` are fine: `load` splits on the first tab only.) -/
theorem single_entry_roundtrip_iff (k v : String) :
    ((KeyValueStore.mkFresh (some (serialize [(k, v)]))).store = [(k, v)]) ↔
      (goodKey k = true ∧ goodVal v = true) := by
  have h0 : (KeyValueStore.mkFresh (some (serialize [(k, v)]))).store
      = loadLines [] (splitLines (serializeL [(k, v)])) := rfl
  constructor
  · intro h
    have hmem : (k, v) ∈ loadLines [] (splitLines (serializeL [(k, v)])) := by
      rw [← h0, h]
      exact List.mem_singleton.2 rfl
    rcases loadLines_mem (fun l hl => splitLines_no_nlcr _ l hl) (k, v) hmem with h' | h'
    · simp at h'
    · exact h'
  · rintro ⟨hk, hv⟩
    rw [h0]
    rw [show serializeL [(k, v)] = entryLine (k, v) ++ '\n' :: [] from by
      simp [serializeL, entryLine]]
    rw [splitLines_clean_append [] (entryLine_no_nlcr hk hv)]
    rw [show splitLines [] = [[]] from rfl]
    rw [show loadLines [] [entryLine (k, v), []]
        = loadLines (dictSet [] k v) [[]] from by
      simp [loadLines, parseLine_entryLine hk hv]]
    simp [loadLines, parseLine_nil, dictSet]

/-- C10: for an absent key, `get` and `remove` return the identical string
`Key '<k>' not found.` with no trailing newline; and when the key maps to
exactly that string, `get` returns the same text either way, so the `get`
result alone cannot distinguish a hit from a miss. -/
theorem get_and_remove_notfound_indistinguishable (s : KeyValueStore) (w : Bool)
    (k : String) (h : containsKey s.store k = false) :
    s.get k = "Key '" ++ k ++ "' not found." ∧
    (s.remove w k).1 = "Key '" ++ k ++ "' not found." ∧
    KeyValueStore.get
      { s with store := dictSet s.store k ("Key '" ++ k ++ "' not found.") } k
      = "Key '" ++ k ++ "' not found." := by
  refine ⟨?_, ?_, ?_⟩
  · unfold KeyValueStore.get
    rw [dictGet_eq_none h]
  · simp [KeyValueStore.remove, h]
  · unfold KeyValueStore.get
    simp [dictGet_dictSet_self]

/-- C10 witness: instantiated on the empty store with `k = "a"`. -/
theorem get_and_remove_notfound_indistinguishable_witness :
    KeyValueStore.get ⟨[], none⟩ "a" = "Key 'a' not found." ∧
    (KeyValueStore.remove true ⟨[], none⟩ "a").1 = "Key 'a' not found." :=
  ⟨(get_and_remove_notfound_indistinguishable ⟨[], none⟩ true "a" (by decide)).1,
   (get_and_remove_notfound_indistinguishable ⟨[], none⟩ true "a" (by decide)).2.1⟩

end KVServer
